import Mathlib

/-!
Verification of the batched Cholesky decomposition engine described by the
`torch.linalg` documentation shim.  The Python file under verification only
binds native kernels and attaches docstrings, so the engine itself is
modelled from the specification: a sequential elimination over the lower
triangle of each matrix, producing a lower-triangular factor `L` with
`A = L * Lᴴ`, failing on the first non-positive (or non-real) diagonal
pivot, and a batch driver reporting the first failing batch index.
-/

namespace TorchLinalg

open Complex Matrix Finset ComplexOrder

noncomputable section

/-- Modelled from the spec: the entry `L[i][j]` computed by the sequential
elimination of the batched Cholesky engine (the native kernel behind
`linalg_cholesky` is absent from the visible source).  Entries strictly above
the diagonal are zero; below the diagonal
`L[i][j] = (A[i][j] - sum) / L[j][j]` where `sum` is the inner product of the
already computed entries of row `i` against the conjugates of those of row
`j`; on the diagonal `L[i][i] = sqrt(d)` for the pivot
`d = A[i][i] - sum`. -/
def cholEntry {n : ℕ} (A : Matrix (Fin n) (Fin n) ℂ) (i j : Fin n) : ℂ :=
  if (i : ℕ) < (j : ℕ) then 0
  else if hji : (j : ℕ) < (i : ℕ) then
    (A i j - ∑ k ∈ (Finset.Iio j).attach,
        cholEntry A i k.1 * (starRingEnd ℂ) (cholEntry A j k.1)) / cholEntry A j j
  else
    (Real.sqrt ((A i i - ∑ k ∈ (Finset.Iio i).attach,
        cholEntry A i k.1 * (starRingEnd ℂ) (cholEntry A i k.1)).re) : ℝ)
termination_by (i : ℕ) * n + (j : ℕ)
decreasing_by
  · have hk : k.1 < j := Finset.mem_Iio.mp k.2
    have := k.1.isLt
    omega
  · have hk : k.1 < j := Finset.mem_Iio.mp k.2
    have hkn := k.1.isLt
    have hjn := j.isLt
    have hmul : ((j : ℕ) + 1) * n ≤ (i : ℕ) * n :=
      Nat.mul_le_mul_right n (by omega)
    have hmul' : (j : ℕ) * n + n ≤ (i : ℕ) * n := by
      calc (j : ℕ) * n + n = ((j : ℕ) + 1) * n := by ring
        _ ≤ (i : ℕ) * n := hmul
    omega
  · have hjn := j.isLt
    have hmul : ((j : ℕ) + 1) * n ≤ (i : ℕ) * n :=
      Nat.mul_le_mul_right n (by omega)
    have hmul' : (j : ℕ) * n + n ≤ (i : ℕ) * n := by
      calc (j : ℕ) * n + n = ((j : ℕ) + 1) * n := by ring
        _ ≤ (i : ℕ) * n := hmul
    omega
  · have hk : k.1 < i := Finset.mem_Iio.mp k.2
    have := k.1.isLt
    omega

/-- Modelled from the spec: the diagonal pivot `d` examined at row `i`,
`d = A[i][i] - sum` with `sum` the running inner product of row `i` of the
factor against its own conjugate. -/
def pivot {n : ℕ} (A : Matrix (Fin n) (Fin n) ℂ) (i : Fin n) : ℂ :=
  A i i - ∑ k ∈ Finset.Iio i, cholEntry A i k * (starRingEnd ℂ) (cholEntry A i k)

/-- Modelled from the spec: the positive-pivot test at row `i`; for complex
element types the pivot must be real (no imaginary residue) and strictly
positive. -/
def pivotOK {n : ℕ} (A : Matrix (Fin n) (Fin n) ℂ) (i : Fin n) : Prop :=
  (pivot A i).im = 0 ∧ 0 < (pivot A i).re

/-- Modelled from the spec: the elimination succeeds on a matrix exactly when
every diagonal pivot passes the positive-pivot test. -/
def cholSuccess {n : ℕ} (A : Matrix (Fin n) (Fin n) ℂ) : Prop :=
  ∀ i : Fin n, pivotOK A i

/-- The factor matrix assembled from the computed entries. -/
def cholL {n : ℕ} (A : Matrix (Fin n) (Fin n) ℂ) : Matrix (Fin n) (Fin n) ℂ :=
  Matrix.of fun i j => cholEntry A i j

open Classical in
/-- Modelled from the spec: decomposition of a single matrix, the batch-of-one
case of the engine; `none` models the `RuntimeError` raised on a failed
pivot test. -/
def cholesky {n : ℕ} (A : Matrix (Fin n) (Fin n) ℂ) :
    Option (Matrix (Fin n) (Fin n) ℂ) :=
  if cholSuccess A then some (cholL A) else none

open Classical in
/-- Modelled from the spec: the batch driver `decompose`; on success it
returns the factors in input order, otherwise it fails carrying the lowest
batch index whose matrix fails the positive-pivot test. -/
def decompose {n : ℕ} :
    List (Matrix (Fin n) (Fin n) ℂ) → Except ℕ (List (Matrix (Fin n) (Fin n) ℂ))
  | [] => Except.ok []
  | A :: rest =>
    if cholSuccess A then
      match decompose rest with
      | Except.ok Ls => Except.ok (cholL A :: Ls)
      | Except.error k => Except.error (k + 1)
    else Except.error 0

/-! Basic unfolding lemmas for the factor entries. -/

theorem cholEntry_upper {n : ℕ} (A : Matrix (Fin n) (Fin n) ℂ) {i j : Fin n}
    (hij : i < j) : cholEntry A i j = 0 := by
  rw [cholEntry.eq_def]
  simp [Fin.lt_def.mp hij]

theorem cholEntry_lower {n : ℕ} (A : Matrix (Fin n) (Fin n) ℂ) {i j : Fin n}
    (hji : j < i) :
    cholEntry A i j =
      (A i j - ∑ k ∈ Finset.Iio j,
        cholEntry A i k * (starRingEnd ℂ) (cholEntry A j k)) / cholEntry A j j := by
  rw [cholEntry.eq_def]
  have h1 : ¬ ((i : ℕ) < (j : ℕ)) := by
    have := Fin.lt_def.mp hji; omega
  rw [if_neg h1, dif_pos (Fin.lt_def.mp hji),
    Finset.sum_attach (Finset.Iio j)
      (fun k => cholEntry A i k * (starRingEnd ℂ) (cholEntry A j k))]

theorem cholEntry_diag {n : ℕ} (A : Matrix (Fin n) (Fin n) ℂ) (i : Fin n) :
    cholEntry A i i = ((Real.sqrt ((pivot A i).re) : ℝ) : ℂ) := by
  rw [cholEntry.eq_def]
  simp only [lt_irrefl, if_false, dite_false]
  rw [Finset.sum_attach (Finset.Iio i)
    (fun k => cholEntry A i k * (starRingEnd ℂ) (cholEntry A i k))]
  rfl

theorem conj_cholEntry_diag {n : ℕ} (A : Matrix (Fin n) (Fin n) ℂ) (j : Fin n) :
    (starRingEnd ℂ) (cholEntry A j j) = cholEntry A j j := by
  rw [cholEntry_diag, Complex.conj_ofReal]

theorem cholEntry_diag_ne_zero {n : ℕ} {A : Matrix (Fin n) (Fin n) ℂ} {j : Fin n}
    (hj : pivotOK A j) : cholEntry A j j ≠ 0 := by
  rw [cholEntry_diag]
  exact Complex.ofReal_ne_zero.mpr (ne_of_gt (Real.sqrt_pos.mpr hj.2))

theorem mul_conjTranspose_apply {n : ℕ} (A : Matrix (Fin n) (Fin n) ℂ) (i j : Fin n) :
    (cholL A * (cholL A)ᴴ) i j =
      ∑ k : Fin n, cholEntry A i k * (starRingEnd ℂ) (cholEntry A j k) := by
  simp [Matrix.mul_apply, Matrix.conjTranspose_apply, cholL]

theorem mulconj_sum_split {n : ℕ} (A : Matrix (Fin n) (Fin n) ℂ) (i j : Fin n) :
    ∑ k : Fin n, cholEntry A i k * (starRingEnd ℂ) (cholEntry A j k) =
      (∑ k ∈ Finset.Iio j, cholEntry A i k * (starRingEnd ℂ) (cholEntry A j k)) +
        cholEntry A i j * (starRingEnd ℂ) (cholEntry A j j) := by
  have hsub : ∑ k : Fin n, cholEntry A i k * (starRingEnd ℂ) (cholEntry A j k) =
      ∑ k ∈ Finset.Iic j, cholEntry A i k * (starRingEnd ℂ) (cholEntry A j k) := by
    refine (Finset.sum_subset (Finset.subset_univ _) ?_).symm
    intro k _ hk
    have hjk : j < k := by
      rcases lt_or_le j k with h | h
      · exact h
      · exact absurd (Finset.mem_Iic.mpr h) hk
    rw [cholEntry_upper A hjk, map_zero, mul_zero]
  rw [hsub, ← Finset.Iio_insert, Finset.sum_insert (by simp), add_comm]

theorem recon_lower {n : ℕ} {A : Matrix (Fin n) (Fin n) ℂ} {i j : Fin n}
    (hji : j < i) (hj : pivotOK A j) : (cholL A * (cholL A)ᴴ) i j = A i j := by
  rw [mul_conjTranspose_apply, mulconj_sum_split, cholEntry_lower A hji,
    conj_cholEntry_diag, div_mul_cancel₀ _ (cholEntry_diag_ne_zero hj)]
  ring

theorem recon_diag {n : ℕ} {A : Matrix (Fin n) (Fin n) ℂ} {i : Fin n}
    (hi : pivotOK A i) : (cholL A * (cholL A)ᴴ) i i = A i i := by
  rw [mul_conjTranspose_apply, mulconj_sum_split, cholEntry_diag, Complex.conj_ofReal,
    ← Complex.ofReal_mul, Real.mul_self_sqrt (le_of_lt hi.2)]
  have him : (((pivot A i).re : ℝ) : ℂ) = pivot A i := by
    apply Complex.ext <;> simp [hi.1]
  rw [him]
  simp only [pivot]
  ring

/-- Full reconstruction: for a Hermitian input on which every pivot passes,
the emitted factor satisfies `L * Lᴴ = A` exactly. -/
theorem recon {n : ℕ} {A : Matrix (Fin n) (Fin n) ℂ}
    (hA : A.IsHermitian) (hs : cholSuccess A) : cholL A * (cholL A)ᴴ = A := by
  ext i j
  rcases lt_trichotomy i j with h | h | h
  · have h1 : (cholL A * (cholL A)ᴴ) j i = A j i := recon_lower h (hs i)
    have hH := Matrix.isHermitian_mul_conjTranspose_self (cholL A)
    calc (cholL A * (cholL A)ᴴ) i j
        = star ((cholL A * (cholL A)ᴴ) j i) := (hH.apply i j).symm
      _ = star (A j i) := by rw [h1]
      _ = A i j := hA.apply i j
  · subst h; exact recon_diag (hs i)
  · exact recon_lower h (hs j)

/-- The assembled factor is lower triangular with real non-negative diagonal. -/
theorem cholL_shape {n : ℕ} (A : Matrix (Fin n) (Fin n) ℂ) :
    (∀ i j : Fin n, i < j → cholL A i j = 0) ∧
      ∀ i : Fin n, (cholL A i i).im = 0 ∧ 0 ≤ (cholL A i i).re := by
  constructor
  · intro i j hij
    exact cholEntry_upper A hij
  · intro i
    have hd : cholL A i i = ((Real.sqrt ((pivot A i).re) : ℝ) : ℂ) := cholEntry_diag A i
    rw [hd]
    constructor
    · exact Complex.ofReal_im _
    · simp

theorem cholL_det_ne_zero {n : ℕ} {A : Matrix (Fin n) (Fin n) ℂ}
    (hs : cholSuccess A) : (cholL A).det ≠ 0 := by
  have htri : (cholL A).BlockTriangular OrderDual.toDual := by
    intro i j hij
    exact cholEntry_upper A (by exact_mod_cast hij)
  rw [Matrix.det_of_lowerTriangular _ htri]
  exact Finset.prod_ne_zero_iff.mpr fun i _ => cholEntry_diag_ne_zero (hs i)

/-- A Hermitian matrix passing every pivot test is positive definite. -/
theorem posDef_of_success {n : ℕ} {A : Matrix (Fin n) (Fin n) ℂ}
    (hA : A.IsHermitian) (hs : cholSuccess A) : A.PosDef := by
  refine ⟨hA, fun x hx => ?_⟩
  have hrec := recon hA hs
  have hPS := Matrix.posSemidef_self_mul_conjTranspose (cholL A)
  have hdet : (cholL A * (cholL A)ᴴ).det ≠ 0 := by
    rw [Matrix.det_mul, Matrix.det_conjTranspose]
    exact mul_ne_zero (cholL_det_ne_zero hs) (star_ne_zero.mpr (cholL_det_ne_zero hs))
  have hvec : (cholL A * (cholL A)ᴴ) *ᵥ x ≠ 0 := by
    intro h0
    exact hx (Matrix.eq_zero_of_mulVec_eq_zero hdet h0)
  have hne : star x ⬝ᵥ (cholL A * (cholL A)ᴴ) *ᵥ x ≠ 0 :=
    fun h0 => hvec ((hPS.dotProduct_mulVec_zero_iff x).mp h0)
  have hle : 0 ≤ star x ⬝ᵥ (cholL A * (cholL A)ᴴ) *ᵥ x := hPS.2 x
  rw [← hrec]
  exact lt_of_le_of_ne hle (Ne.symm hne)

/-- Auxiliary witness vector used to show that every pivot of a positive
definite matrix passes: it solves the triangular system making all
coordinates of `(cholL A)ᴴ *ᵥ x` below row `m` vanish, with `x m = 1` and
zeroes beyond row `m`. -/
def auxVec {n : ℕ} (A : Matrix (Fin n) (Fin n) ℂ) (m : Fin n) (k : Fin n) : ℂ :=
  if k = m then 1
  else if m < k then 0
  else
    -(∑ j ∈ (Finset.Ioc k m).attach,
        (starRingEnd ℂ) (cholEntry A j.1 k) * auxVec A m j.1) /
      (starRingEnd ℂ) (cholEntry A k k)
termination_by (m : ℕ) - (k : ℕ)
decreasing_by
  have hj := Finset.mem_Ioc.mp j.2
  have h1 : (k : ℕ) < (j.1 : ℕ) := Fin.lt_def.mp hj.1
  have h2 : (j.1 : ℕ) ≤ (m : ℕ) := Fin.le_def.mp hj.2
  omega

theorem auxVec_self {n : ℕ} (A : Matrix (Fin n) (Fin n) ℂ) (m : Fin n) :
    auxVec A m m = 1 := by
  rw [auxVec.eq_def]
  simp

theorem auxVec_gt {n : ℕ} (A : Matrix (Fin n) (Fin n) ℂ) {m k : Fin n}
    (h : m < k) : auxVec A m k = 0 := by
  rw [auxVec.eq_def]
  rw [if_neg (by exact fun he => absurd (he ▸ h) (lt_irrefl m)), if_pos h]

theorem auxVec_lt {n : ℕ} (A : Matrix (Fin n) (Fin n) ℂ) {m k : Fin n}
    (h : k < m) :
    auxVec A m k =
      -(∑ j ∈ Finset.Ioc k m, (starRingEnd ℂ) (cholEntry A j k) * auxVec A m j) /
        (starRingEnd ℂ) (cholEntry A k k) := by
  rw [auxVec.eq_def]
  rw [if_neg (by exact fun he => absurd (he ▸ h) (lt_irrefl m)),
    if_neg (by exact fun h2 => absurd (lt_trans h h2) (lt_irrefl k)),
    Finset.sum_attach (Finset.Ioc k m)
      (fun j => (starRingEnd ℂ) (cholEntry A j k) * auxVec A m j)]

theorem auxVec_solve {n : ℕ} {A : Matrix (Fin n) (Fin n) ℂ} {m k : Fin n}
    (hk : k < m) (hkOK : pivotOK A k) :
    (starRingEnd ℂ) (cholEntry A k k) * auxVec A m k
      + ∑ j ∈ Finset.Ioc k m, (starRingEnd ℂ) (cholEntry A j k) * auxVec A m j = 0 := by
  have hc : (starRingEnd ℂ) (cholEntry A k k) ≠ 0 := by
    simpa using cholEntry_diag_ne_zero hkOK
  rw [auxVec_lt A hk]
  field_simp
  ring

/-- With all pivots below row `m` positive and a vanishing pivot at row `m`,
the auxiliary vector is annihilated by the conjugate transpose of the
factor. -/
theorem conjT_mulVec_auxVec {n : ℕ} {A : Matrix (Fin n) (Fin n) ℂ} {m : Fin n}
    (hs : ∀ j, j < m → pivotOK A j) (hm0 : cholEntry A m m = 0) :
    (cholL A)ᴴ *ᵥ auxVec A m = 0 := by
  funext k
  have hentry : ∀ j : Fin n, (cholL A)ᴴ k j = (starRingEnd ℂ) (cholEntry A j k) := by
    intro j; rfl
  show ∑ j, (cholL A)ᴴ k j * auxVec A m j = 0
  rcases lt_trichotomy k m with hk | hk | hk
  · -- rows below m: the defining triangular relation
    have hsub : ∑ j, (cholL A)ᴴ k j * auxVec A m j =
        ∑ j ∈ Finset.Icc k m, (cholL A)ᴴ k j * auxVec A m j := by
      refine (Finset.sum_subset (Finset.subset_univ _) ?_).symm
      intro j _ hj
      rw [Finset.mem_Icc, not_and_or] at hj
      rcases hj with hj | hj
      · have hjk : j < k := lt_of_not_le hj
        rw [hentry, cholEntry_upper A hjk, map_zero, zero_mul]
      · have hmj : m < j := lt_of_not_le hj
        rw [auxVec_gt A hmj, mul_zero]
    rw [hsub, ← Finset.Ioc_insert_left (le_of_lt hk), Finset.sum_insert (by simp)]
    have := auxVec_solve hk (hs k hk)
    simp only [hentry]
    exact this
  · -- row m: every term vanishes, the diagonal one because the pivot is zero
    subst hk
    refine Finset.sum_eq_zero fun j _ => ?_
    rcases lt_trichotomy j k with hj | hj | hj
    · rw [hentry, cholEntry_upper A hj, map_zero, zero_mul]
    · subst hj; rw [hentry, hm0, map_zero, zero_mul]
    · rw [auxVec_gt A hj, mul_zero]
  · -- rows beyond m
    refine Finset.sum_eq_zero fun j _ => ?_
    rcases le_or_lt j m with hj | hj
    · have hjk : j < k := lt_of_le_of_lt hj hk
      rw [hentry, cholEntry_upper A hjk, map_zero, zero_mul]
    · rw [auxVec_gt A hj, mul_zero]

theorem mulVec_apply' {n : ℕ} (M : Matrix (Fin n) (Fin n) ℂ) (v : Fin n → ℂ)
    (i : Fin n) : (M *ᵥ v) i = ∑ j, M i j * v j := rfl

theorem dotProduct_apply' {n : ℕ} (v w : Fin n → ℂ) :
    v ⬝ᵥ w = ∑ i, v i * w i := rfl

theorem dotProduct_auxVec_eq_pivot {n : ℕ} {A : Matrix (Fin n) (Fin n) ℂ} {m : Fin n}
    (hA : A.IsHermitian) (hs : ∀ j, j < m → pivotOK A j) (hm0 : cholEntry A m m = 0) :
    star (auxVec A m) ⬝ᵥ A *ᵥ auxVec A m = pivot A m := by
  have h0 : (cholL A * (cholL A)ᴴ) *ᵥ auxVec A m = 0 := by
    rw [← Matrix.mulVec_mulVec, conjT_mulVec_auxVec hs hm0, Matrix.mulVec_zero]
  have hEl : ∀ i j : Fin n, j < i → pivotOK A j →
      (A - cholL A * (cholL A)ᴴ) i j = 0 := by
    intro i j hji hj
    rw [Matrix.sub_apply, recon_lower hji hj, sub_self]
  have hEd : ∀ i : Fin n, pivotOK A i → (A - cholL A * (cholL A)ᴴ) i i = 0 := by
    intro i hi
    rw [Matrix.sub_apply, recon_diag hi, sub_self]
  have hEherm : (A - cholL A * (cholL A)ᴴ).IsHermitian :=
    hA.sub (Matrix.isHermitian_mul_conjTranspose_self (cholL A))
  have hEu : ∀ i j : Fin n, i < j → i < m → (A - cholL A * (cholL A)ᴴ) i j = 0 := by
    intro i j hij him
    have := hEherm.apply i j
    rw [hEl j i hij (hs i him)] at this
    rw [← this, star_zero]
  have hEmm : (A - cholL A * (cholL A)ᴴ) m m = pivot A m := by
    rw [Matrix.sub_apply, mul_conjTranspose_apply, mulconj_sum_split, hm0, map_zero,
      mul_zero, add_zero]
    rfl
  have hrow_lt : ∀ i : Fin n, i < m →
      ((A - cholL A * (cholL A)ᴴ) *ᵥ auxVec A m) i = 0 := by
    intro i hi
    rw [mulVec_apply']
    refine Finset.sum_eq_zero fun j _ => ?_
    rcases le_or_lt j m with hjm | hjm
    · rcases lt_trichotomy j i with hj | hj | hj
      · rw [hEl i j hj (hs j (lt_trans hj hi)), zero_mul]
      · subst hj; rw [hEd j (hs j hi), zero_mul]
      · rw [hEu i j hj hi, zero_mul]
    · rw [auxVec_gt A hjm, mul_zero]
  have hrow_m : ((A - cholL A * (cholL A)ᴴ) *ᵥ auxVec A m) m = pivot A m := by
    rw [mulVec_apply', Finset.sum_eq_single m]
    · rw [hEmm, auxVec_self, mul_one]
    · intro j _ hj
      rcases lt_or_gt_of_ne hj with hjm | hjm
      · rw [hEl m j hjm (hs j hjm), zero_mul]
      · rw [auxVec_gt A hjm, mul_zero]
    · intro h
      exact absurd (Finset.mem_univ m) h
  have hE : star (auxVec A m) ⬝ᵥ (A - cholL A * (cholL A)ᴴ) *ᵥ auxVec A m =
      pivot A m := by
    rw [dotProduct_apply', Finset.sum_eq_single m]
    · rw [hrow_m, Pi.star_apply, auxVec_self, star_one, one_mul]
    · intro i _ hi
      rcases lt_or_gt_of_ne hi with him | him
      · rw [hrow_lt i him, mul_zero]
      · rw [Pi.star_apply, auxVec_gt A him, star_zero, zero_mul]
    · intro h
      exact absurd (Finset.mem_univ m) h
  have hsplit : A = (A - cholL A * (cholL A)ᴴ) + cholL A * (cholL A)ᴴ := by abel
  calc star (auxVec A m) ⬝ᵥ A *ᵥ auxVec A m
      = star (auxVec A m) ⬝ᵥ
          ((A - cholL A * (cholL A)ᴴ) + cholL A * (cholL A)ᴴ) *ᵥ auxVec A m := by
        rw [← hsplit]
    _ = star (auxVec A m) ⬝ᵥ
          ((A - cholL A * (cholL A)ᴴ) *ᵥ auxVec A m
            + (cholL A * (cholL A)ᴴ) *ᵥ auxVec A m) := by
        rw [Matrix.add_mulVec]
    _ = star (auxVec A m) ⬝ᵥ (A - cholL A * (cholL A)ᴴ) *ᵥ auxVec A m
          + star (auxVec A m) ⬝ᵥ (cholL A * (cholL A)ᴴ) *ᵥ auxVec A m :=
        dotProduct_add _ _ _
    _ = pivot A m + 0 := by rw [hE, h0, dotProduct_zero]
    _ = pivot A m := add_zero _

theorem pivot_im {n : ℕ} {A : Matrix (Fin n) (Fin n) ℂ}
    (hA : A.IsHermitian) (m : Fin n) : (pivot A m).im = 0 := by
  have hsum : (∑ k ∈ Finset.Iio m,
      cholEntry A m k * (starRingEnd ℂ) (cholEntry A m k)).im = 0 := by
    rw [Complex.im_sum]
    refine Finset.sum_eq_zero fun k _ => ?_
    rw [Complex.mul_conj]
    exact Complex.ofReal_im _
  have hdiag : (A m m).im = 0 := by
    have h1 := congrArg Complex.im (hA.apply m m)
    simp only [Complex.star_def, Complex.conj_im] at h1
    linarith
  simp [pivot, Complex.sub_im, hsum, hdiag]

theorem pivotOK_step {n : ℕ} {A : Matrix (Fin n) (Fin n) ℂ} {m : Fin n}
    (hPD : A.PosDef) (hs : ∀ j, j < m → pivotOK A j) : pivotOK A m := by
  refine ⟨pivot_im hPD.1 m, ?_⟩
  by_contra hre
  push_neg at hre
  have hm0 : cholEntry A m m = 0 := by
    rw [cholEntry_diag, Real.sqrt_eq_zero_of_nonpos hre]
    simp
  have hx : auxVec A m ≠ 0 := by
    intro h
    have h1 := congrFun h m
    rw [auxVec_self] at h1
    simp at h1
  have hlt := hPD.2 _ hx
  rw [dotProduct_auxVec_eq_pivot hPD.1 hs hm0] at hlt
  have h2 := (Complex.lt_def.mp hlt).1
  simp only [Complex.zero_re] at h2
  linarith

/-- Every pivot of a positive definite matrix passes the positive-pivot
test, so the elimination succeeds. -/
theorem success_of_posDef {n : ℕ} {A : Matrix (Fin n) (Fin n) ℂ}
    (hPD : A.PosDef) : cholSuccess A := by
  have H : ∀ N : ℕ, ∀ i : Fin n, (i : ℕ) < N → pivotOK A i := by
    intro N
    induction N with
    | zero => intro i h; omega
    | succ N ih =>
      intro i h
      rcases Nat.lt_or_ge (i : ℕ) N with h' | h'
      · exact ih i h'
      · exact pivotOK_step hPD fun j hj => ih j (by
          have := Fin.lt_def.mp hj; omega)
  exact fun i => H ((i : ℕ) + 1) i (by omega)

/-! Behaviour of the batch driver. -/

theorem decompose_ok_of_success {n : ℕ} (batch : List (Matrix (Fin n) (Fin n) ℂ))
    (h : ∀ A ∈ batch, cholSuccess A) :
    decompose batch = Except.ok (batch.map cholL) := by
  induction batch with
  | nil => rfl
  | cons A rest ih =>
    rw [decompose, if_pos (h A (List.mem_cons_self A rest)),
      ih fun B hB => h B (List.mem_cons_of_mem A hB)]
    rfl

theorem decompose_ok_iff {n : ℕ} (batch Ls : List (Matrix (Fin n) (Fin n) ℂ)) :
    decompose batch = Except.ok Ls ↔
      (∀ A ∈ batch, cholSuccess A) ∧ Ls = batch.map cholL := by
  constructor
  · intro h
    induction batch generalizing Ls with
    | nil =>
      rw [decompose] at h
      refine ⟨by simp, ?_⟩
      cases h
      rfl
    | cons A rest ih =>
      rw [decompose] at h
      by_cases hs : cholSuccess A
      · rw [if_pos hs] at h
        cases hrest : decompose rest with
        | ok Ls' =>
          rw [hrest] at h
          cases h
          obtain ⟨h1, h2⟩ := ih Ls' hrest
          refine ⟨?_, by rw [h2]; rfl⟩
          intro B hB
          rcases List.mem_cons.mp hB with hB | hB
          · exact hB ▸ hs
          · exact h1 B hB
        | error k =>
          rw [hrest] at h
          cases h
      · rw [if_neg hs] at h
        cases h
  · rintro ⟨h1, rfl⟩
    exact decompose_ok_of_success batch h1

theorem decompose_error_first {n : ℕ} (pre : List (Matrix (Fin n) (Fin n) ℂ))
    (A : Matrix (Fin n) (Fin n) ℂ) (post : List (Matrix (Fin n) (Fin n) ℂ))
    (hpre : ∀ B ∈ pre, cholSuccess B) (hA : ¬ cholSuccess A) :
    decompose (pre ++ A :: post) = Except.error pre.length := by
  induction pre with
  | nil =>
    rw [List.nil_append, decompose, if_neg hA]
    rfl
  | cons B pre ih =>
    rw [List.cons_append, decompose, if_pos (hpre B (List.mem_cons_self B pre)),
      ih fun C hC => hpre C (List.mem_cons_of_mem B hC)]
    rfl

theorem cholesky_eq_some {n : ℕ} {A : Matrix (Fin n) (Fin n) ℂ}
    (h : cholSuccess A) : cholesky A = some (cholL A) := by
  rw [cholesky, if_pos h]

theorem cholesky_eq_none {n : ℕ} {A : Matrix (Fin n) (Fin n) ℂ}
    (h : ¬ cholSuccess A) : cholesky A = none := by
  rw [cholesky, if_neg h]

/-! Concrete evaluation on 1-by-1 and 2-by-2 matrices. -/

theorem pivotOK_of {n : ℕ} {A : Matrix (Fin n) (Fin n) ℂ} {i : Fin n} (c : ℝ)
    (h : pivot A i = (c : ℂ)) (hc : 0 < c) : pivotOK A i := by
  constructor
  · rw [h]; exact Complex.ofReal_im c
  · rw [h]; simpa using hc

theorem pivot_fin1 (A : Matrix (Fin 1) (Fin 1) ℂ) : pivot A 0 = A 0 0 := by
  unfold pivot
  rw [show (Finset.Iio (0 : Fin 1)) = ∅ from by decide, Finset.sum_empty, sub_zero]

theorem pivot_fin2_zero (A : Matrix (Fin 2) (Fin 2) ℂ) : pivot A 0 = A 0 0 := by
  unfold pivot
  rw [show (Finset.Iio (0 : Fin 2)) = ∅ from by decide, Finset.sum_empty, sub_zero]

theorem cholEntry_fin2_00 (A : Matrix (Fin 2) (Fin 2) ℂ) :
    cholEntry A 0 0 = ((Real.sqrt ((A 0 0).re) : ℝ) : ℂ) := by
  rw [cholEntry_diag, pivot_fin2_zero]

theorem cholEntry_fin2_10 (A : Matrix (Fin 2) (Fin 2) ℂ) :
    cholEntry A 1 0 = A 1 0 / cholEntry A 0 0 := by
  rw [cholEntry_lower A (show (0 : Fin 2) < 1 from by decide),
    show (Finset.Iio (0 : Fin 2)) = ∅ from by decide, Finset.sum_empty, sub_zero]

theorem pivot_fin2_one (A : Matrix (Fin 2) (Fin 2) ℂ) :
    pivot A 1 = A 1 1 - cholEntry A 1 0 * (starRingEnd ℂ) (cholEntry A 1 0) := by
  unfold pivot
  rw [show (Finset.Iio (1 : Fin 2)) = {0} from by decide, Finset.sum_singleton]

theorem sqrt_four : Real.sqrt 4 = 2 := by
  rw [show (4 : ℝ) = 2 ^ 2 from by norm_num, Real.sqrt_sq (by norm_num)]

/-! The known fixture `[[4,2],[2,3]]`. -/

theorem fixture_00 : cholEntry (Matrix.of !![(4:ℂ),2;2,3]) 0 0 = 2 := by
  rw [cholEntry_fin2_00, show (Matrix.of !![(4:ℂ),2;2,3]) 0 0 = 4 from rfl,
    show ((4:ℂ)).re = 4 from by norm_num, sqrt_four]
  norm_num

theorem fixture_10 : cholEntry (Matrix.of !![(4:ℂ),2;2,3]) 1 0 = 1 := by
  rw [cholEntry_fin2_10, fixture_00, show (Matrix.of !![(4:ℂ),2;2,3]) 1 0 = 2 from rfl]
  norm_num

theorem fixture_pivot1 : pivot (Matrix.of !![(4:ℂ),2;2,3]) 1 = 2 := by
  rw [pivot_fin2_one, fixture_10, show (Matrix.of !![(4:ℂ),2;2,3]) 1 1 = 3 from rfl]
  simp
  norm_num

theorem fixture_success : cholSuccess (Matrix.of !![(4:ℂ),2;2,3]) := by
  intro i
  fin_cases i
  · show pivotOK (Matrix.of !![(4:ℂ),2;2,3]) 0
    exact pivotOK_of 4
      (by rw [pivot_fin2_zero, show (Matrix.of !![(4:ℂ),2;2,3]) 0 0 = 4 from rfl]; norm_num)
      (by norm_num)
  · show pivotOK (Matrix.of !![(4:ℂ),2;2,3]) 1
    exact pivotOK_of 2 (by rw [fixture_pivot1]; norm_num) (by norm_num)

theorem fixture_cholL :
    cholL (Matrix.of !![(4:ℂ),2;2,3]) =
      Matrix.of !![(2:ℂ), 0; 1, ((Real.sqrt 2 : ℝ) : ℂ)] := by
  ext i j
  fin_cases i <;> fin_cases j
  · exact fixture_00
  · exact cholEntry_upper _ (show (0 : Fin 2) < 1 from by decide)
  · exact fixture_10
  · show cholEntry (Matrix.of !![(4:ℂ),2;2,3]) 1 1 = _
    rw [cholEntry_diag, fixture_pivot1]
    norm_num

/-! The rejection fixture `[[1,2],[2,1]]`. -/

theorem reject_00 : cholEntry (Matrix.of !![(1:ℂ),2;2,1]) 0 0 = 1 := by
  rw [cholEntry_fin2_00, show (Matrix.of !![(1:ℂ),2;2,1]) 0 0 = 1 from rfl,
    show ((1:ℂ)).re = 1 from by norm_num, Real.sqrt_one]
  norm_num

theorem reject_pivot1 : pivot (Matrix.of !![(1:ℂ),2;2,1]) 1 = -3 := by
  rw [pivot_fin2_one, cholEntry_fin2_10, reject_00,
    show (Matrix.of !![(1:ℂ),2;2,1]) 1 0 = 2 from rfl,
    show (Matrix.of !![(1:ℂ),2;2,1]) 1 1 = 1 from rfl,
    show ((2:ℂ) / 1) = 2 from by norm_num,
    show (starRingEnd ℂ) 2 = 2 from map_ofNat _ 2]
  norm_num

theorem reject_not_success : ¬ cholSuccess (Matrix.of !![(1:ℂ),2;2,1]) := by
  intro h
  have h2 := (h 1).2
  rw [reject_pivot1] at h2
  norm_num at h2

/-! A non-Hermitian matrix whose lower triangle passes every pivot test. -/

theorem skew_00 : cholEntry (Matrix.of !![(1:ℂ),7;0,1]) 0 0 = 1 := by
  rw [cholEntry_fin2_00, show (Matrix.of !![(1:ℂ),7;0,1]) 0 0 = 1 from rfl,
    show ((1:ℂ)).re = 1 from by norm_num, Real.sqrt_one]
  norm_num

theorem skew_10 : cholEntry (Matrix.of !![(1:ℂ),7;0,1]) 1 0 = 0 := by
  rw [cholEntry_fin2_10, skew_00, show (Matrix.of !![(1:ℂ),7;0,1]) 1 0 = 0 from rfl]
  norm_num

theorem skew_success : cholSuccess (Matrix.of !![(1:ℂ),7;0,1]) := by
  intro i
  fin_cases i
  · show pivotOK (Matrix.of !![(1:ℂ),7;0,1]) 0
    exact pivotOK_of 1
      (by rw [pivot_fin2_zero, show (Matrix.of !![(1:ℂ),7;0,1]) 0 0 = 1 from rfl]; norm_num)
      (by norm_num)
  · show pivotOK (Matrix.of !![(1:ℂ),7;0,1]) 1
    refine pivotOK_of 1 ?_ (by norm_num)
    rw [pivot_fin2_one, skew_10, show (Matrix.of !![(1:ℂ),7;0,1]) 1 1 = 1 from rfl]
    norm_num

theorem skew_not_posDef : ¬ (Matrix.of !![(1:ℂ),7;0,1]).PosDef := by
  intro h
  have h1 := h.1.apply 0 1
  rw [show (Matrix.of !![(1:ℂ),7;0,1]) 1 0 = 0 from rfl,
    show (Matrix.of !![(1:ℂ),7;0,1]) 0 1 = 7 from rfl] at h1
  simp at h1

/-! A 1-by-1 positive definite matrix. -/

theorem one_posDef : (Matrix.of !![(4:ℂ)]).PosDef := by
  rw [show Matrix.of !![(4:ℂ)] = Matrix.diagonal (fun _ => 4) from by
    ext i j
    fin_cases i
    fin_cases j
    simp]
  rw [Matrix.posDef_diagonal_iff]
  intro i
  rw [Complex.lt_def]
  norm_num

/-! Determinant alias and default norm, modelled from the spec. -/

/-- Modelled from the spec: `torch.det`, the native determinant kernel absent
from the visible source; it computes the matrix determinant. -/
def torch_det {n : ℕ} (A : Matrix (Fin n) (Fin n) ℂ) : ℂ := A.det

/-- Modelled from the spec: `_linalg.linalg_det`, whose attached docstring
documents it as an alias of `torch.det`. -/
def linalg_det {n : ℕ} (A : Matrix (Fin n) (Fin n) ℂ) : ℂ := torch_det A

/-- Modelled from the spec: the vector 2-norm computed by `linalg.norm` on a
1-D input with `ord=None`. -/
def norm2 {N : ℕ} (v : Fin N → ℝ) : ℝ := Real.sqrt (∑ i, v i ^ 2)

/-- Modelled from the spec: the 1-D vector of the elements of a matrix. -/
def flatten {m k : ℕ} (M : Matrix (Fin m) (Fin k) ℝ) : Fin (m * k) → ℝ :=
  fun p => M (finProdFinEquiv.symm p).1 (finProdFinEquiv.symm p).2

/-- Modelled from the spec: `linalg.norm` with both `ord` and `dim` equal to
`None` on a 2-D input, the Frobenius norm. -/
def linalg_norm_matrix {m k : ℕ} (M : Matrix (Fin m) (Fin k) ℝ) : ℝ :=
  Real.sqrt (∑ i, ∑ j, M i j ^ 2)

/-- Modelled from the spec: `linalg.norm` with both `ord` and `dim` equal to
`None` on a 1-D input, the 2-norm. -/
def linalg_norm_vector {N : ℕ} (v : Fin N → ℝ) : ℝ := norm2 v

/-! The claims. -/

/-- Claim C1: for every batch of Hermitian positive-definite matrices the
decomposition succeeds, and each returned factor is lower triangular and
reconstructs its source matrix exactly, `A = L * Lᴴ` (the conjugate
transpose is the plain transpose for real-valued entries); the single-matrix
call agrees. -/
theorem posdef_roundtrip {n : ℕ} (batch : List (Matrix (Fin n) (Fin n) ℂ))
    (hbatch : ∀ A ∈ batch, A.PosDef) :
    decompose batch = Except.ok (batch.map cholL) ∧
      ∀ A ∈ batch, cholesky A = some (cholL A) ∧
        (∀ i j : Fin n, i < j → cholL A i j = 0) ∧
        cholL A * (cholL A)ᴴ = A := by
  have hs : ∀ A ∈ batch, cholSuccess A := fun A hA => success_of_posDef (hbatch A hA)
  refine ⟨decompose_ok_of_success batch hs, fun A hA => ?_⟩
  exact ⟨cholesky_eq_some (hs A hA), (cholL_shape A).1, recon (hbatch A hA).1 (hs A hA)⟩

/-- Witness for C1 at the concrete positive-definite batch `[[[4]]]`. -/
theorem posdef_roundtrip_witness :
    decompose [Matrix.of !![(4:ℂ)]] =
        Except.ok ([Matrix.of !![(4:ℂ)]].map cholL) ∧
      ∀ A ∈ [Matrix.of !![(4:ℂ)]], cholesky A = some (cholL A) ∧
        (∀ i j : Fin 1, i < j → cholL A i j = 0) ∧
        cholL A * (cholL A)ᴴ = A :=
  posdef_roundtrip [Matrix.of !![(4:ℂ)]] (by
    intro B hB
    rw [List.mem_singleton] at hB
    subst hB
    exact one_posDef)

/-- Claim C2 counterexample: the matrix `[[1,7],[0,1]]` is not Hermitian
positive definite, yet the call on the batch containing it returns a factor
batch instead of failing, and in the batch pairing it with the indefinite
`[[1,2],[2,1]]` the error reports index 1 although the first matrix that is
not Hermitian positive-definite sits at index 0. -/
theorem nonhermitian_slips_through :
    ¬ (Matrix.of !![(1:ℂ),7;0,1]).PosDef ∧
      decompose [Matrix.of !![(1:ℂ),7;0,1]] =
        Except.ok [cholL (Matrix.of !![(1:ℂ),7;0,1])] ∧
      decompose [Matrix.of !![(1:ℂ),7;0,1], Matrix.of !![(1:ℂ),2;2,1]] =
        Except.error 1 := by
  refine ⟨skew_not_posDef, ?_, ?_⟩
  · have h := decompose_ok_of_success [Matrix.of !![(1:ℂ),7;0,1]] (by
      intro B hB
      rw [List.mem_singleton] at hB
      subst hB
      exact skew_success)
    simpa using h
  · exact decompose_error_first [Matrix.of !![(1:ℂ),7;0,1]]
      (Matrix.of !![(1:ℂ),2;2,1]) [] (by
        intro B hB
        rw [List.mem_singleton] at hB
        subst hB
        exact skew_success) reject_not_success

/-- Claim C2 (amended): whenever some matrix of the batch fails the
positive-pivot test the whole call fails, carrying the lowest batch index
whose matrix fails the test; the failing matrix is never positive definite,
and when the earlier matrices are Hermitian they are exactly the positive
definite ones, so for Hermitian batches the reported index is that of the
first non-positive-definite matrix. -/
theorem decompose_error_policy {n : ℕ} (pre : List (Matrix (Fin n) (Fin n) ℂ))
    (A : Matrix (Fin n) (Fin n) ℂ) (post : List (Matrix (Fin n) (Fin n) ℂ))
    (hpre : ∀ B ∈ pre, cholSuccess B) (hA : ¬ cholSuccess A) :
    decompose (pre ++ A :: post) = Except.error pre.length ∧
      ¬ A.PosDef ∧
      ((∀ B ∈ pre, B.IsHermitian) → ∀ B ∈ pre, B.PosDef) := by
  refine ⟨decompose_error_first pre A post hpre hA, ?_, ?_⟩
  · exact fun hPD => hA (success_of_posDef hPD)
  · intro hH B hB
    exact posDef_of_success (hH B hB) (hpre B hB)

/-- Witness for the amended C2 at the batch `[[[4,2],[2,3]], [[1,2],[2,1]]]`:
the rejection fixture at index 1 is reported. -/
theorem decompose_error_policy_witness :
    decompose ([Matrix.of !![(4:ℂ),2;2,3]] ++ Matrix.of !![(1:ℂ),2;2,1] :: []) =
        Except.error ([Matrix.of !![(4:ℂ),2;2,3]] : List _).length ∧
      ¬ (Matrix.of !![(1:ℂ),2;2,1]).PosDef ∧
      ((∀ B ∈ [Matrix.of !![(4:ℂ),2;2,3]], B.IsHermitian) →
        ∀ B ∈ [Matrix.of !![(4:ℂ),2;2,3]], B.PosDef) :=
  decompose_error_policy [Matrix.of !![(4:ℂ),2;2,3]] (Matrix.of !![(1:ℂ),2;2,1]) []
    (by
      intro B hB
      rw [List.mem_singleton] at hB
      subst hB
      exact fixture_success)
    reject_not_success

/-- Claim C3: every factor in a successfully returned batch is lower
triangular, with all entries strictly above the diagonal exactly zero and
real non-negative diagonal entries. -/
theorem factors_shape {n : ℕ} (batch Ls : List (Matrix (Fin n) (Fin n) ℂ))
    (h : decompose batch = Except.ok Ls) :
    ∀ L ∈ Ls, (∀ i j : Fin n, i < j → L i j = 0) ∧
      ∀ i : Fin n, (L i i).im = 0 ∧ 0 ≤ (L i i).re := by
  obtain ⟨hsucc, rfl⟩ := (decompose_ok_iff batch Ls).mp h
  intro L hL
  obtain ⟨A, hA, rfl⟩ := List.mem_map.mp hL
  exact cholL_shape A

/-- Witness for C3 at the concrete batch `[[[4,2],[2,3]]]` and its factor. -/
theorem factors_shape_witness :
    (∀ i j : Fin 2, i < j → cholL (Matrix.of !![(4:ℂ),2;2,3]) i j = 0) ∧
      ∀ i : Fin 2, (cholL (Matrix.of !![(4:ℂ),2;2,3]) i i).im = 0 ∧
        0 ≤ (cholL (Matrix.of !![(4:ℂ),2;2,3]) i i).re :=
  factors_shape [Matrix.of !![(4:ℂ),2;2,3]] [cholL (Matrix.of !![(4:ℂ),2;2,3])]
    (by
      have h := decompose_ok_of_success [Matrix.of !![(4:ℂ),2;2,3]] (by
        intro B hB
        rw [List.mem_singleton] at hB
        subst hB
        exact fixture_success)
      simpa using h)
    (cholL (Matrix.of !![(4:ℂ),2;2,3])) (List.mem_singleton.mpr rfl)

/-- Claim C4: zero-sized inputs are valid and error-free; a 0-by-0 matrix
decomposes to the 0-by-0 factor and an empty batch decomposes to the empty
result. -/
theorem zero_size_ok :
    (∀ A : Matrix (Fin 0) (Fin 0) ℂ,
        cholesky A = some (cholL A) ∧ decompose [A] = Except.ok [cholL A]) ∧
      ∀ n : ℕ, decompose ([] : List (Matrix (Fin n) (Fin n) ℂ)) = Except.ok [] := by
  constructor
  · intro A
    have hs : cholSuccess A := fun i => i.elim0
    refine ⟨cholesky_eq_some hs, ?_⟩
    have h := decompose_ok_of_success [A] (by
      intro B hB
      rw [List.mem_singleton] at hB
      subst hB
      exact hs)
    simpa using h
  · intro n
    rfl

/-- Claim C5: on a successfully decomposed batch, the factor at each output
position is exactly the factor produced by decomposing the matrix at the
same input position alone. -/
theorem batch_order_preserved {n : ℕ} (batch Ls : List (Matrix (Fin n) (Fin n) ℂ))
    (h : decompose batch = Except.ok Ls) :
    Ls.length = batch.length ∧
      ∀ k (hk : k < batch.length) (hk2 : k < Ls.length),
        decompose [batch.get ⟨k, hk⟩] = Except.ok [Ls.get ⟨k, hk2⟩] := by
  obtain ⟨hsucc, rfl⟩ := (decompose_ok_iff batch Ls).mp h
  refine ⟨List.length_map _ _, ?_⟩
  intro k hk hk2
  have hget : (batch.map cholL).get ⟨k, hk2⟩ = cholL (batch.get ⟨k, hk⟩) := by
    simp
  rw [hget]
  have hmem : batch.get ⟨k, hk⟩ ∈ batch := batch.get_mem k hk
  have h1 := decompose_ok_of_success [batch.get ⟨k, hk⟩] (by
    intro B hB
    rw [List.mem_singleton] at hB
    subst hB
    exact hsucc _ hmem)
  simpa using h1

/-- Witness for C5 at the concrete batch `[[[4,2],[2,3]]]`. -/
theorem batch_order_preserved_witness :
    ([cholL (Matrix.of !![(4:ℂ),2;2,3])] : List _).length =
        ([Matrix.of !![(4:ℂ),2;2,3]] : List _).length ∧
      ∀ k (hk : k < ([Matrix.of !![(4:ℂ),2;2,3]] : List _).length)
        (hk2 : k < ([cholL (Matrix.of !![(4:ℂ),2;2,3])] : List _).length),
        decompose [([Matrix.of !![(4:ℂ),2;2,3]] : List _).get ⟨k, hk⟩] =
          Except.ok [([cholL (Matrix.of !![(4:ℂ),2;2,3])] : List _).get ⟨k, hk2⟩] :=
  batch_order_preserved [Matrix.of !![(4:ℂ),2;2,3]]
    [cholL (Matrix.of !![(4:ℂ),2;2,3])]
    (by
      have h := decompose_ok_of_success [Matrix.of !![(4:ℂ),2;2,3]] (by
        intro B hB
        rw [List.mem_singleton] at hB
        subst hB
        exact fixture_success)
      simpa using h)

/-- Claim C7: on the fixture `[[4,2],[2,3]]` the decomposition succeeds with
factor `[[2,0],[1,sqrt 2]]`, and `L * Lᵗ` reconstructs the input exactly. -/
theorem known_fixture :
    cholesky (Matrix.of !![(4:ℂ),2;2,3]) =
        some (Matrix.of !![(2:ℂ), 0; 1, ((Real.sqrt 2 : ℝ) : ℂ)]) ∧
      Matrix.of !![(2:ℂ), 0; 1, ((Real.sqrt 2 : ℝ) : ℂ)] *
          (Matrix.of !![(2:ℂ), 0; 1, ((Real.sqrt 2 : ℝ) : ℂ)])ᵀ =
        Matrix.of !![(4:ℂ),2;2,3] := by
  constructor
  · rw [cholesky_eq_some fixture_success, fixture_cholL]
  · ext i j
    fin_cases i <;> fin_cases j <;>
      simp [Matrix.mul_apply, Fin.sum_univ_two, Matrix.transpose_apply] <;>
      norm_num [← Complex.ofReal_mul, Real.mul_self_sqrt]

/-- Claim C8: the decomposition is a pure deterministic function of its
input; equal input batches give equal results, whether success or the same
identified failure. -/
theorem decompose_deterministic {n : ℕ} (b1 b2 : List (Matrix (Fin n) (Fin n) ℂ))
    (h : b1 = b2) : decompose b1 = decompose b2 := by rw [h]

/-- Witness for C8 at a concrete batch. -/
theorem decompose_deterministic_witness :
    decompose [Matrix.of !![(4:ℂ),2;2,3]] = decompose [Matrix.of !![(4:ℂ),2;2,3]] :=
  decompose_deterministic [Matrix.of !![(4:ℂ),2;2,3]] [Matrix.of !![(4:ℂ),2;2,3]] rfl

/-- Claim C9: `linalg.det` is an alias of `torch.det`; on every input they
agree. -/
theorem linalg_det_eq_torch_det {n : ℕ} (A : Matrix (Fin n) (Fin n) ℂ) :
    linalg_det A = torch_det A := rfl

/-- Claim C10: with `ord=None` and `dim=None`, the norm of a matrix equals
the 2-norm of the 1-D vector of its elements. -/
theorem norm_default_flattens {m k : ℕ} (M : Matrix (Fin m) (Fin k) ℝ) :
    linalg_norm_matrix M = linalg_norm_vector (flatten M) := by
  unfold linalg_norm_matrix linalg_norm_vector norm2 flatten
  congr 1
  rw [show (∑ i, ∑ j, M i j ^ 2) = ∑ q : Fin m × Fin k, M q.1 q.2 ^ 2 from by
    rw [← Finset.univ_product_univ, Finset.sum_product]]
  exact (Equiv.sum_comp finProdFinEquiv.symm
    (fun q : Fin m × Fin k => M q.1 q.2 ^ 2)).symm

end

end TorchLinalg
